import Mathlib

/-!
A shallow embedding of the `ThreadPool` class of `thrdPool.h` (together with the
driver scenario of `example.cpp`).

The pool is modelled as an interleaved transition system.  The mutex
`queue_mutex` is modelled by making every critical section one atomic step of
the system; the condition variable `condition` is modelled by an explicit
`waiting` worker status that only a notification (`notify_one` on enqueue,
`notify_all` in the destructor) can leave.  A task's callable bound to its
arguments (`std::bind(f, args...)`) is modelled by the outcome of invoking it:
either a returned value or a raised failure (`Except`).  Each task's
`std::future` / `std::packaged_task` shared state (its result channel) is a
slot that is `none` while pending and `some outcome` once the worker has run
the task.
-/

set_option maxHeartbeats 1000000

namespace ThreadPoolModel

/-- Result value type of a submitted callable (the driver in `example.cpp`
submits `int`-returning lambdas). -/
abbrev Val := Int

/-- A failure raised by a task's callable, modelled by its message. -/
abbrev TErr := String

deriving instance DecidableEq for Except

/-- A submitted unit of work: the callable `f` already bound to its arguments
by `std::bind(std::forward<F>(f), std::forward<Args>(args)...)` in
`ThreadPool::enqueue`.  `run` is the outcome of invoking it: a value, or a
raised failure. -/
structure Comp where
  run : Except TErr Val
deriving DecidableEq, Repr

/-- Position of one worker thread inside the lambda body spawned in
`ThreadPool::ThreadPool`:
* `ready`      — about to acquire the lock and evaluate the wait predicate
                 `stop || !tasks.empty()` (also the state on entry, and the
                 state a notification puts a waiting worker back into);
* `waiting`    — blocked inside `condition.wait`, needs a notification;
* `executing t` — has popped task `t` (`task = move(front); pop()`), has
                 released the lock, and has not yet finished `task()`;
* `terminated` — returned from the lambda (the `return` at
                 `if (stop && tasks.empty())`). -/
inductive WStatus where
  | ready
  | waiting
  | executing (t : Nat)
  | terminated
deriving DecidableEq, Repr

/-- Progress of the destructor `ThreadPool::~ThreadPool`:
`idle` (not yet called) → `stopSet` (after `stop = true` under the lock) →
`notified` (after `condition.notify_all()`) → `joined` (after every
`worker.join()` has returned, i.e. the destructor has returned). -/
inductive DtorPhase where
  | idle
  | stopSet
  | notified
  | joined
deriving DecidableEq, Repr

/-- The shared state of one `ThreadPool` object, together with the result
channels of every task ever submitted to it.
* `workers`  models the `std::vector<std::thread> workers` member: the status
  of each spawned worker thread;
* `tasks`    models `std::queue<std::function<void()>> tasks`: ids of the
  queued tasks, head of the list = front of the queue;
* `stop`     models the `bool stop` flag;
* `comps`    records, for every task id ever allocated by `enqueue`, the bound
  computation it wraps (task ids are allocated consecutively, so the id is an
  index into this list);
* `channels` records each task's result channel (`packaged_task` shared
  state): `none` = still pending, `some r` = completed with outcome `r`;
* `dtor`     records how far the destructor has progressed. -/
structure Pool where
  workers  : List WStatus
  tasks    : List Nat
  stop     : Bool
  comps    : List Comp
  channels : List (Option (Except TErr Val))
  dtor     : DtorPhase
deriving DecidableEq, Repr

/-- `ThreadPool::ThreadPool(threads)`: `stop` is initialised to `false`, no
tasks are queued, and `threads` worker threads are spawned, each starting at
the top of its loop. -/
def init (threads : Nat) : Pool :=
  { workers  := List.replicate threads WStatus.ready
    tasks    := []
    stop     := false
    comps    := []
    channels := []
    dtor     := DtorPhase.idle }

/-- The locked section of `ThreadPool::enqueue`: the `packaged_task` for the
new computation `c` and its future are created, then under the lock the `stop`
flag is checked — if it is set, `throw std::runtime_error("enqueue on stopped
ThreadPool")` unwinds (destroying the just-created task object and future, so
nothing of the call survives) and the pool is left unchanged; otherwise the
wrapping lambda is appended to the tail of the task queue
(`tasks.emplace([task](){ (*task)(); })`).  On success it returns the new pool
state and the id of the new task (whose future is the returned handle).  There
is no capacity check of any kind. -/
def enqueueCore (p : Pool) (c : Comp) : Except String (Pool × Nat) :=
  if p.stop then Except.error "enqueue on stopped ThreadPool"
  else
    Except.ok
      ({ p with
          comps    := p.comps ++ [c]
          channels := p.channels ++ [none]
          tasks    := p.tasks ++ [p.comps.length] },
        p.comps.length)

/-- `condition.notify_one()` at the end of `ThreadPool::enqueue`: if any
worker is blocked in `condition.wait`, exactly one of them (the scheduler's
choice `w = some i`) is woken and re-evaluates the wait predicate; if no
worker is waiting the notification is lost (`w = none`).  An invalid choice
(waking a worker that is not waiting, or claiming nobody waits while somebody
does) is not a transition of the system. -/
def notifyOne (p : Pool) (w : Option Nat) : Option Pool :=
  match w with
  | some i =>
      if p.workers[i]? = some WStatus.waiting then
        some { p with workers := p.workers.set i WStatus.ready }
      else none
  | none =>
      if WStatus.waiting ∈ p.workers then none else some p

/-- One pass of worker `i` through the locked region at the top of its loop
(`unique_lock lock(queue_mutex); condition.wait(lock, [this]{ return stop ||
!tasks.empty(); }); ...`):
* if the queue is empty and `stop` is set, the predicate holds and
  `if (this->stop && this->tasks.empty()) return;` terminates the worker;
* if the queue is empty and `stop` is clear, the predicate is false and the
  worker blocks in `condition.wait` (atomically releasing the lock);
* otherwise the predicate holds, the exit test fails, and the worker removes
  exactly the head task (`task = std::move(tasks.front()); tasks.pop();`) and
  leaves the locked region to execute it. -/
def workerWake (p : Pool) (i : Nat) : Option Pool :=
  match p.workers[i]? with
  | some WStatus.ready =>
      match p.tasks with
      | [] =>
          if p.stop then
            some { p with workers := p.workers.set i WStatus.terminated }
          else
            some { p with workers := p.workers.set i WStatus.waiting }
      | t :: ts =>
          some { p with
                  workers := p.workers.set i (WStatus.executing t)
                  tasks   := ts }
  | _ => none

/-- Worker `i` runs `task()` outside the lock.  The queued lambda invokes the
`packaged_task`, which invokes the bound computation and stores its outcome —
returned value or raised failure, `(p.comps[t]).run` — into the task's result
channel.  A raised failure is captured by the `packaged_task` shared state and
never propagates out of `task()`, so the worker unconditionally goes back to
the top of its loop. -/
def workerExec (p : Pool) (i : Nat) : Option Pool :=
  match p.workers[i]? with
  | some (WStatus.executing t) =>
      match p.comps[t]? with
      | some c =>
          some { p with
                  channels := p.channels.set t (some c.run)
                  workers  := p.workers.set i WStatus.ready }
      | none => none
  | _ => none

/-- `w` after `condition.notify_all()`: a waiting worker is woken back to the
top of its wait loop; workers in any other state are unaffected. -/
def wakeAll (w : WStatus) : WStatus :=
  if w = WStatus.waiting then WStatus.ready else w

/-- An atomic step of the interleaved system.  The scheduler chooses the
event. -/
inductive Event where
  | enq (c : Comp) (w : Option Nat)
  | wake (i : Nat)
  | exec (i : Nat)
  | dstop
  | dnotify
  | djoin
deriving DecidableEq, Repr

/-- The transition function: `none` means the event is not enabled in state
`p` (the thread in question is blocked, or the scheduling choice is invalid).
* `enq c w`   — one call of `ThreadPool::enqueue` with a computation `c`,
  followed by its `condition.notify_one()` waking `w`; a call made while
  `stop` is set throws and changes nothing, so it is not a transition;
* `wake i`    — worker `i` passes through the locked region at the top of its
  loop (terminate / block / pop the head task);
* `exec i`    — worker `i` finishes running its popped task;
* `dstop`     — the destructor sets `stop = true` under the lock;
* `dnotify`   — the destructor's `condition.notify_all()`;
* `djoin`     — the destructor's join loop returns; `join` blocks until the
  thread has finished, so this is enabled only when every worker has
  terminated. -/
def step (p : Pool) (e : Event) : Option Pool :=
  match e with
  | Event.enq c w =>
      match enqueueCore p c with
      | Except.ok (p₁, _) => notifyOne p₁ w
      | Except.error _ => none
  | Event.wake i => workerWake p i
  | Event.exec i => workerExec p i
  | Event.dstop =>
      if p.dtor = DtorPhase.idle then
        some { p with stop := true, dtor := DtorPhase.stopSet }
      else none
  | Event.dnotify =>
      if p.dtor = DtorPhase.stopSet then
        some { p with workers := p.workers.map wakeAll, dtor := DtorPhase.notified }
      else none
  | Event.djoin =>
      if p.dtor = DtorPhase.notified ∧ ∀ w ∈ p.workers, w = WStatus.terminated then
        some { p with dtor := DtorPhase.joined }
      else none

/-- Run a whole schedule of events from state `p`. -/
def run (p : Pool) : List Event → Option Pool
  | [] => some p
  | e :: es =>
      match step p e with
      | some p₁ => run p₁ es
      | none => none

/-- The states a pool constructed with `threads` worker threads can reach
under some interleaving. -/
def Reachable (threads : Nat) (p : Pool) : Prop :=
  ∃ tr : List Event, run (init threads) tr = some p

/-- `handle.get()` on the future of task `t`: `none` while the task is still
pending (the call would block) or the id is unknown, `some (Except.ok v)` when
the task completed returning `v`, `some (Except.error e)` when it completed by
raising `e` (in C++, `get` re-raises the captured exception at this point). -/
def getHandle (p : Pool) (t : Nat) : Option (Except TErr Val) :=
  (p.channels[t]?).join

/-! ### Generic list helpers -/

theorem countP_set_comm {α : Type} (pb : α → Bool) :
    ∀ (l : List α) (i : Nat) (a v : α), l[i]? = some a →
      (l.set i v).countP pb + (if pb a then 1 else 0) =
        l.countP pb + (if pb v then 1 else 0) := by
  intro l
  induction l with
  | nil => intro i a v h; simp at h
  | cons x xs ih =>
      intro i a v h
      cases i with
      | zero =>
          simp only [List.getElem?_cons_zero, Option.some.injEq] at h
          subst h
          simp [List.countP_cons]
          omega
      | succ j =>
          simp only [List.getElem?_cons_succ] at h
          have := ih j a v h
          simp [List.countP_cons]
          omega

theorem countP_map_congr {α : Type} (pb : α → Bool) (f : α → α)
    (hf : ∀ a, pb (f a) = pb a) : ∀ l : List α, (l.map f).countP pb = l.countP pb := by
  intro l
  induction l with
  | nil => simp
  | cons x xs ih => simp [List.countP_cons, ih, hf]

theorem countP_pos_of_get {α : Type} (pb : α → Bool) {l : List α} {i : Nat} {a : α}
    (h : l[i]? = some a) (ha : pb a = true) : 0 < l.countP pb :=
  List.countP_pos_iff.mpr ⟨a, List.getElem?_mem h, ha⟩

theorem mem_set_elim {α : Type} {a v : α} :
    ∀ (l : List α) (i : Nat), a ∈ l.set i v → a = v ∨ a ∈ l := by
  intro l
  induction l with
  | nil => intro i h; simp at h
  | cons x xs ih =>
      intro i h
      cases i with
      | zero =>
          rcases List.mem_cons.mp h with h | h
          · exact Or.inl h
          · exact Or.inr (List.mem_cons_of_mem _ h)
      | succ j =>
          rcases List.mem_cons.mp h with h | h
          · exact Or.inr (h ▸ List.mem_cons_self _ _)
          · rcases ih j h with h | h
            · exact Or.inl h
            · exact Or.inr (List.mem_cons_of_mem _ h)

theorem getq_append_lt {α : Type} (l m : List α) (j : Nat) (h : j < l.length) :
    (l ++ m)[j]? = l[j]? := by
  rw [List.getElem?_append]
  simp [h]

/-! ### The well-formedness invariant -/

/-- How many live references to task `t` the pool holds: copies of `t` in the
task queue plus workers currently holding a popped copy of `t`. -/
def occ (p : Pool) (t : Nat) : Nat :=
  p.tasks.countP (fun u => u = t) +
    p.workers.countP (fun w => w = WStatus.executing t)

/-- Invariant of every reachable state of a pool built with `threads` worker
threads.  The fields tie the queue, the workers, the result channels and the
destructor phase together; all claims below are derived from them. -/
structure WF (threads : Nat) (p : Pool) : Prop where
  wlen : p.workers.length = threads
  clen : p.channels.length = p.comps.length
  sorted : p.tasks.Pairwise (· < ·)
  tvalid : ∀ t ∈ p.tasks, t < p.comps.length
  evalid : ∀ (i t : Nat), p.workers[i]? = some (WStatus.executing t) →
    t < p.comps.length
  stopDtor : p.stop = true ↔ p.dtor ≠ DtorPhase.idle
  pending1 : ∀ (t : Nat), p.channels[t]? = some none → occ p t = 1
  done0 : ∀ (t : Nat) (r : Except TErr Val),
    p.channels[t]? = some (some r) → occ p t = 0
  outcomes : ∀ (t : Nat) (r : Except TErr Val), p.channels[t]? = some (some r) →
    ∃ c, p.comps[t]? = some c ∧ r = c.run
  termEmpty : WStatus.terminated ∈ p.workers → p.tasks = []
  termStop : WStatus.terminated ∈ p.workers → p.stop = true
  joinedAll : p.dtor = DtorPhase.joined → ∀ w ∈ p.workers, w = WStatus.terminated
  notifWait : (p.dtor = DtorPhase.notified ∨ p.dtor = DtorPhase.joined) →
    WStatus.waiting ∉ p.workers

theorem wf_init (threads : Nat) : WF threads (init threads) := by
  refine ⟨?_, ?_, ?_, ?_, ?_, ?_, ?_, ?_, ?_, ?_, ?_, ?_, ?_⟩
  · simp [init]
  · simp [init]
  · simp [init]
  · simp [init]
  · intro i t h
    simp only [init, List.getElem?_replicate] at h
    split at h <;> simp_all
  · simp [init]
  · simp [init]
  · simp [init]
  · simp [init]
  · intro h
    have := List.eq_of_mem_replicate (show WStatus.terminated ∈
      List.replicate threads WStatus.ready from h)
    simp_all [init]
  · intro h
    have := List.eq_of_mem_replicate (show WStatus.terminated ∈
      List.replicate threads WStatus.ready from h)
    simp_all [init]
  · simp [init]
  · intro h
    simp [init] at h

theorem getq_of_mem {α : Type} {a : α} {l : List α} (h : a ∈ l) :
    ∃ i : Nat, l[i]? = some a := by
  obtain ⟨i, hi, rfl⟩ := List.getElem_of_mem h
  exact ⟨i, List.getElem?_eq_getElem hi⟩

/-- A successful `enqueue` happened with `stop` clear, allocated the next
consecutive task id, and appended exactly one task at the tail. -/
theorem enqueueCore_ok {p : Pool} {c : Comp} {p₁ : Pool} {tid : Nat}
    (h : enqueueCore p c = Except.ok (p₁, tid)) :
    p.stop = false ∧ tid = p.comps.length ∧
      p₁ = { p with
              comps    := p.comps ++ [c]
              channels := p.channels ++ [none]
              tasks    := p.tasks ++ [p.comps.length] } := by
  unfold enqueueCore at h
  split at h
  · simp at h
  · rename_i hs
    injection h with h
    injection h with h₁ h₂
    exact ⟨by simpa using hs, h₂.symm, h₁.symm⟩

theorem wf_enq {n : Nat} {p : Pool} {c : Comp} {p₁ : Pool} {tid : Nat}
    (hw : WF n p) (h : enqueueCore p c = Except.ok (p₁, tid)) : WF n p₁ := by
  obtain ⟨hstop, htid, rfl⟩ := enqueueCore_ok h
  have hterm : WStatus.terminated ∉ p.workers := fun hm => by
    have := hw.termStop hm; rw [hstop] at this; cases this
  have hdtor : p.dtor = DtorPhase.idle := by
    by_contra hne
    have := hw.stopDtor.mpr hne
    rw [hstop] at this; cases this
  have hclen : p.channels.length = p.comps.length := hw.clen
  have hcountT : ∀ u : Nat, p.comps.length ≤ u →
      p.tasks.countP (fun x => x = u) = 0 := by
    intro u hu
    apply List.countP_eq_zero.mpr
    intro a ha
    have := hw.tvalid a ha
    simp only [decide_eq_true_eq]
    omega
  have hcountW : ∀ u : Nat, p.comps.length ≤ u →
      p.workers.countP (fun w => w = WStatus.executing u) = 0 := by
    intro u hu
    apply List.countP_eq_zero.mpr
    intro a ha
    obtain ⟨i, hi⟩ := getq_of_mem ha
    simp only [decide_eq_true_eq]
    intro heq
    subst heq
    have := hw.evalid i u hi
    omega
  have hocc : ∀ u : Nat,
      occ { p with
              comps    := p.comps ++ [c]
              channels := p.channels ++ [none]
              tasks    := p.tasks ++ [p.comps.length] } u =
        occ p u + (if p.comps.length = u then 1 else 0) := by
    intro u
    by_cases h : p.comps.length = u
    · simp [occ, List.countP_append, h]
      omega
    · simp [occ, List.countP_append, h]
  refine ⟨?_, ?_, ?_, ?_, ?_, ?_, ?_, ?_, ?_, ?_, ?_, ?_, ?_⟩
  · exact hw.wlen
  · simp [hclen]
  · refine List.pairwise_append.mpr ⟨hw.sorted, by simp, ?_⟩
    intro a ha b hb
    simp only [List.mem_singleton] at hb
    subst hb
    exact hw.tvalid a ha
  · intro t ht
    rcases List.mem_append.mp ht with ht | ht
    · have := hw.tvalid t ht
      simp
      omega
    · simp only [List.mem_singleton] at ht
      subst ht
      simp
  · intro i t hi
    have := hw.evalid i t hi
    simp
    omega
  · simp only [hstop, hdtor]
    simp
  · intro t ht
    rcases Nat.lt_trichotomy t p.comps.length with hlt | heq | hgt
    · rw [show ((p.channels ++ [none])[t]? = p.channels[t]?) from
        getq_append_lt _ _ _ (by omega)] at ht
      rw [hocc t, if_neg (show ¬p.comps.length = t by omega),
        hw.pending1 t ht]
    · have hle : p.comps.length ≤ t := by omega
      rw [hocc t, if_pos heq.symm,
        show occ p t = 0 from by simp [occ, hcountT t hle, hcountW t hle]]
    · exfalso
      rw [List.getElem?_eq_none (by simp [hclen]; omega)] at ht
      cases ht
  · intro t r ht
    rcases Nat.lt_trichotomy t p.comps.length with hlt | heq | hgt
    · rw [show ((p.channels ++ [none])[t]? = p.channels[t]?) from
        getq_append_lt _ _ _ (by omega)] at ht
      rw [hocc t, if_neg (show ¬p.comps.length = t by omega),
        hw.done0 t r ht]
    · exfalso
      have hnone : (p.channels ++ [none])[t]? = some none := by
        rw [heq, ← hclen]
        exact List.getElem?_concat_length _ _
      rw [hnone] at ht
      cases ht
    · exfalso
      rw [List.getElem?_eq_none (by simp [hclen]; omega)] at ht
      cases ht
  · intro t r ht
    rcases Nat.lt_trichotomy t p.comps.length with hlt | heq | hgt
    · rw [show ((p.channels ++ [none])[t]? = p.channels[t]?) from
        getq_append_lt _ _ _ (by omega)] at ht
      obtain ⟨d, hd, hr⟩ := hw.outcomes t r ht
      refine ⟨d, ?_, hr⟩
      rw [getq_append_lt _ _ _ (by omega)]
      exact hd
    · exfalso
      have hnone : (p.channels ++ [none])[t]? = some none := by
        rw [heq, ← hclen]
        exact List.getElem?_concat_length _ _
      rw [hnone] at ht
      cases ht
    · exfalso
      rw [List.getElem?_eq_none (by simp [hclen]; omega)] at ht
      cases ht
  · intro hm
    exact absurd hm hterm
  · intro hm
    exact absurd hm hterm
  · intro hj
    rw [show ({ p with
              comps    := p.comps ++ [c]
              channels := p.channels ++ [none]
              tasks    := p.tasks ++ [p.comps.length] } : Pool).dtor = p.dtor
      from rfl, hdtor] at hj
    cases hj
  · intro hj
    rw [show ({ p with
              comps    := p.comps ++ [c]
              channels := p.channels ++ [none]
              tasks    := p.tasks ++ [p.comps.length] } : Pool).dtor = p.dtor
      from rfl, hdtor] at hj
    rcases hj with hj | hj <;> cases hj

theorem lt_of_getq {α : Type} {l : List α} {i : Nat} {a : α} (h : l[i]? = some a) :
    i < l.length :=
  (List.getElem?_eq_some.mp h).1

/-- Setting one worker slot changes the count of holders of task `u` by the
difference between the new and the old status being `executing u`. -/
theorem countP_exec_set (ws : List WStatus) (i : Nat) (a v : WStatus)
    (hi : ws[i]? = some a) (u : Nat) :
    (ws.set i v).countP (fun w => w = WStatus.executing u) +
        (if a = WStatus.executing u then 1 else 0) =
      ws.countP (fun w => w = WStatus.executing u) +
        (if v = WStatus.executing u then 1 else 0) := by
  have h := countP_set_comm (fun w => w = WStatus.executing u) ws i a v hi
  by_cases ha : a = WStatus.executing u <;> by_cases hv : v = WStatus.executing u <;>
    simp [ha, hv] at h ⊢ <;> omega

/-- Special case: neither the old nor the new status holds a task, so the
holder count of every task is unchanged. -/
theorem countP_exec_set_same (ws : List WStatus) (i : Nat) (a v : WStatus)
    (hi : ws[i]? = some a)
    (ha : ∀ u : Nat, a ≠ WStatus.executing u) (hv : ∀ u : Nat, v ≠ WStatus.executing u)
    (u : Nat) :
    (ws.set i v).countP (fun w => w = WStatus.executing u) =
      ws.countP (fun w => w = WStatus.executing u) := by
  have h := countP_exec_set ws i a v hi u
  rw [if_neg (by simpa using ha u), if_neg (by simpa using hv u)] at h
  omega

theorem wf_notifyOne {n : Nat} {p p₁ : Pool} {w : Option Nat}
    (hw : WF n p) (h : notifyOne p w = some p₁) : WF n p₁ := by
  cases w with
  | none =>
      by_cases hmem : WStatus.waiting ∈ p.workers
      · simp only [notifyOne, if_pos hmem] at h
        cases h
      · simp only [notifyOne, if_neg hmem] at h
        cases h
        exact hw
  | some i =>
      by_cases hi : p.workers[i]? = some WStatus.waiting
      · simp only [notifyOne, if_pos hi] at h
        cases h
        have hocc : ∀ u : Nat,
            occ { p with workers := p.workers.set i WStatus.ready } u = occ p u := by
          intro u
          simp only [occ]
          rw [countP_exec_set_same p.workers i WStatus.waiting WStatus.ready hi
            (by intro u hx; cases hx) (by intro u hx; cases hx)]
        refine ⟨?_, hw.clen, hw.sorted, hw.tvalid, ?_, hw.stopDtor, ?_, ?_,
          hw.outcomes, ?_, ?_, ?_, ?_⟩
        · simp [hw.wlen]
        · intro j t hj
          by_cases hji : j = i
          · rw [hji, show ({ p with workers := p.workers.set i WStatus.ready } :
                Pool).workers = p.workers.set i WStatus.ready from rfl,
              List.getElem?_set_eq_of_lt _ (lt_of_getq hi)] at hj
            cases hj
          · rw [show ({ p with workers := p.workers.set i WStatus.ready } :
                Pool).workers = p.workers.set i WStatus.ready from rfl,
              List.getElem?_set_ne (fun hx => hji hx.symm)] at hj
            exact hw.evalid j t hj
        · intro t ht
          rw [hocc t]
          exact hw.pending1 t ht
        · intro t r ht
          rw [hocc t]
          exact hw.done0 t r ht
        · intro hm
          rcases mem_set_elim _ _ hm with hm | hm
          · cases hm
          · exact hw.termEmpty hm
        · intro hm
          rcases mem_set_elim _ _ hm with hm | hm
          · cases hm
          · exact hw.termStop hm
        · intro hj
          have := hw.joinedAll hj _ (List.getElem?_mem hi)
          cases this
        · intro hphase
          exact fun hm => by
            rcases mem_set_elim _ _ hm with hx | hx
            · cases hx
            · exact hw.notifWait hphase hx
      · simp only [notifyOne, if_neg hi] at h
        cases h


theorem wf_wake {n : Nat} {p p₁ : Pool} {i : Nat}
    (hw : WF n p) (h : workerWake p i = some p₁) : WF n p₁ := by
  unfold workerWake at h
  cases hi : p.workers[i]? with
  | none => rw [hi] at h; cases h
  | some s =>
    rw [hi] at h
    cases s with
    | waiting => cases h
    | executing t => cases h
    | terminated => cases h
    | ready =>
      have hilt : i < p.workers.length := lt_of_getq hi
      cases ht : p.tasks with
      | nil =>
        rw [ht] at h
        cases hs : p.stop with
        | true =>
          rw [hs, if_pos rfl] at h
          cases h
          have hocc : ∀ u : Nat,
              occ (Pool.mk (p.workers.set i WStatus.terminated) [] true
                p.comps p.channels p.dtor) u = occ p u := by
            intro u
            simp only [occ, ht]
            rw [countP_exec_set_same p.workers i WStatus.ready WStatus.terminated hi
              (by intro u hx; cases hx) (by intro u hx; cases hx)]
          refine ⟨?_, hw.clen, List.Pairwise.nil, by simp, ?_, ?_, ?_, ?_,
            hw.outcomes, fun _ => rfl, fun _ => rfl, ?_, ?_⟩
          · simp [hw.wlen]
          · intro j t hj
            by_cases hji : j = i
            · rw [hji] at hj
              have hj' : (p.workers.set i WStatus.terminated)[i]? =
                  some (WStatus.executing t) := hj
              rw [List.getElem?_set_eq_of_lt _ hilt] at hj'
              cases hj'
            · have hj' : (p.workers.set i WStatus.terminated)[j]? =
                  some (WStatus.executing t) := hj
              rw [List.getElem?_set_ne (fun hx => hji hx.symm)] at hj'
              exact hw.evalid j t hj'
          · exact ⟨fun _ => hw.stopDtor.mp hs, fun _ => rfl⟩
          · intro t htc
            rw [hocc t]
            exact hw.pending1 t htc
          · intro t r htc
            rw [hocc t]
            exact hw.done0 t r htc
          · intro hj w hm
            rcases mem_set_elim _ _ hm with hm | hm
            · exact hm
            · exact hw.joinedAll hj w hm
          · intro hphase hm
            rcases mem_set_elim _ _ hm with hm | hm
            · cases hm
            · exact hw.notifWait hphase hm
        | false =>
          rw [hs, if_neg (by simp)] at h
          cases h
          have hdtor : p.dtor = DtorPhase.idle := by
            by_contra hne
            have := hw.stopDtor.mpr hne
            rw [hs] at this
            cases this
          have hocc : ∀ u : Nat,
              occ (Pool.mk (p.workers.set i WStatus.waiting) [] false
                p.comps p.channels p.dtor) u = occ p u := by
            intro u
            simp only [occ, ht]
            rw [countP_exec_set_same p.workers i WStatus.ready WStatus.waiting hi
              (by intro u hx; cases hx) (by intro u hx; cases hx)]
          refine ⟨?_, hw.clen, List.Pairwise.nil, by simp, ?_, ?_, ?_, ?_,
            hw.outcomes, fun _ => rfl, ?_, ?_, ?_⟩
          · simp [hw.wlen]
          · intro j t hj
            by_cases hji : j = i
            · rw [hji] at hj
              have hj' : (p.workers.set i WStatus.waiting)[i]? =
                  some (WStatus.executing t) := hj
              rw [List.getElem?_set_eq_of_lt _ hilt] at hj'
              cases hj'
            · have hj' : (p.workers.set i WStatus.waiting)[j]? =
                  some (WStatus.executing t) := hj
              rw [List.getElem?_set_ne (fun hx => hji hx.symm)] at hj'
              exact hw.evalid j t hj'
          · constructor
            · intro hx
              cases hx
            · intro hx
              exact absurd hdtor hx
          · intro t htc
            rw [hocc t]
            exact hw.pending1 t htc
          · intro t r htc
            rw [hocc t]
            exact hw.done0 t r htc
          · intro hm
            exfalso
            rcases mem_set_elim _ _ hm with hm | hm
            · cases hm
            · have := hw.termStop hm
              rw [hs] at this
              cases this
          · intro hj
            have hj' : p.dtor = DtorPhase.joined := hj
            rw [hdtor] at hj'
            cases hj'
          · intro hphase
            exfalso
            have hphase' : p.dtor = DtorPhase.notified ∨ p.dtor = DtorPhase.joined :=
              hphase
            rw [hdtor] at hphase'
            rcases hphase' with hx | hx <;> cases hx
      | cons t ts =>
        rw [ht] at h
        cases h
        have hmemt : t ∈ p.tasks := by
          rw [ht]
          exact List.mem_cons_self _ _
        have hocc : ∀ u : Nat,
            occ (Pool.mk (p.workers.set i (WStatus.executing t)) ts
              p.stop p.comps p.channels p.dtor) u = occ p u := by
          intro u
          have hc := countP_exec_set p.workers i WStatus.ready (WStatus.executing t) hi u
          rw [if_neg (by simp)] at hc
          simp only [occ, ht, List.countP_cons]
          by_cases htu : t = u
          · subst htu
            rw [if_pos (by simp)] at hc
            simp
            omega
          · rw [if_neg (by simpa using htu)] at hc
            simp [htu]
            omega
        refine ⟨?_, hw.clen, ?_, ?_, ?_, hw.stopDtor, ?_, ?_,
          hw.outcomes, ?_, ?_, ?_, ?_⟩
        · simp [hw.wlen]
        · have := hw.sorted
          rw [ht] at this
          exact this.of_cons
        · intro a ha
          exact hw.tvalid a (by rw [ht]; exact List.mem_cons_of_mem _ ha)
        · intro j u hj
          by_cases hji : j = i
          · rw [hji] at hj
            have hj' : (p.workers.set i (WStatus.executing t))[i]? =
                some (WStatus.executing u) := hj
            rw [List.getElem?_set_eq_of_lt _ hilt] at hj'
            injection hj' with hj'
            injection hj' with hj'
            subst hj'
            exact hw.tvalid t hmemt
          · have hj' : (p.workers.set i (WStatus.executing t))[j]? =
                some (WStatus.executing u) := hj
            rw [List.getElem?_set_ne (fun hx => hji hx.symm)] at hj'
            exact hw.evalid j u hj'
        · intro u hu
          rw [hocc u]
          exact hw.pending1 u hu
        · intro u r hu
          rw [hocc u]
          exact hw.done0 u r hu
        · intro hm
          exfalso
          rcases mem_set_elim _ _ hm with hm | hm
          · cases hm
          · have := hw.termEmpty hm
            rw [ht] at this
            cases this
        · intro hm
          rcases mem_set_elim _ _ hm with hm | hm
          · cases hm
          · exact hw.termStop hm
        · intro hj
          have := hw.joinedAll hj _ (List.getElem?_mem hi)
          cases this
        · intro hphase hm
          rcases mem_set_elim _ _ hm with hm | hm
          · cases hm
          · exact hw.notifWait hphase hm


theorem wf_exec {n : Nat} {p p₁ : Pool} {i : Nat}
    (hw : WF n p) (h : workerExec p i = some p₁) : WF n p₁ := by
  unfold workerExec at h
  cases hi : p.workers[i]? with
  | none => rw [hi] at h; cases h
  | some s =>
    rw [hi] at h
    cases s with
    | ready => cases h
    | waiting => cases h
    | terminated => cases h
    | executing t =>
      dsimp only at h
      cases hc : p.comps[t]? with
      | none => rw [hc] at h; cases h
      | some c =>
        rw [hc] at h
        cases h
        have hilt : i < p.workers.length := lt_of_getq hi
        have htlt : t < p.comps.length := hw.evalid i t hi
        have htc : t < p.channels.length := by rw [hw.clen]; exact htlt
        have hch : p.channels[t]? = some none := by
          obtain ⟨ch, hch⟩ : ∃ ch, p.channels[t]? = some ch :=
            ⟨_, List.getElem?_eq_getElem htc⟩
          cases ch with
          | none => exact hch
          | some r =>
            exfalso
            have h0 := hw.done0 t r hch
            have hwpos : 0 < p.workers.countP (fun w => w = WStatus.executing t) :=
              countP_pos_of_get _ hi (by simp)
            simp only [occ] at h0
            omega
        have h1 := hw.pending1 t hch
        have hc1 := countP_exec_set p.workers i (WStatus.executing t) WStatus.ready hi t
        rw [if_pos (by simp), if_neg (by simp)] at hc1
        have hT0 : p.tasks.countP (fun u => decide (u = t)) = 0 ∧
            p.workers.countP (fun w => decide (w = WStatus.executing t)) = 1 := by
          simp only [occ] at h1
          constructor <;> omega
        have hocc_t : occ (Pool.mk (p.workers.set i WStatus.ready) p.tasks p.stop
            p.comps (p.channels.set t (some c.run)) p.dtor) t = 0 := by
          simp only [occ]
          omega
        have hocc_ne : ∀ u : Nat, ¬u = t →
            occ (Pool.mk (p.workers.set i WStatus.ready) p.tasks p.stop
              p.comps (p.channels.set t (some c.run)) p.dtor) u = occ p u := by
          intro u hut
          have hc2 := countP_exec_set p.workers i (WStatus.executing t) WStatus.ready hi u
          rw [if_neg (by simp; intro hx; exact hut hx.symm), if_neg (by simp)] at hc2
          simp only [occ]
          omega
        refine ⟨?_, ?_, hw.sorted, hw.tvalid, ?_, hw.stopDtor, ?_, ?_, ?_, ?_, ?_,
          ?_, ?_⟩
        · simp [hw.wlen]
        · simp [hw.clen]
        · intro j u hj
          by_cases hji : j = i
          · rw [hji] at hj
            have hj' : (p.workers.set i WStatus.ready)[i]? =
                some (WStatus.executing u) := hj
            rw [List.getElem?_set_eq_of_lt _ hilt] at hj'
            cases hj'
          · have hj' : (p.workers.set i WStatus.ready)[j]? =
                some (WStatus.executing u) := hj
            rw [List.getElem?_set_ne (fun hx => hji hx.symm)] at hj'
            exact hw.evalid j u hj'
        · intro u hu
          by_cases hut : u = t
          · exfalso
            rw [hut] at hu
            have hu' : (p.channels.set t (some c.run))[t]? = some none := hu
            rw [List.getElem?_set_eq_of_lt _ htc] at hu'
            cases hu'
          · have hu' : (p.channels.set t (some c.run))[u]? = some none := hu
            rw [List.getElem?_set_ne (fun hx => hut hx.symm)] at hu'
            rw [hocc_ne u hut]
            exact hw.pending1 u hu'
        · intro u r hu
          by_cases hut : u = t
          · rw [hut]
            exact hocc_t
          · have hu' : (p.channels.set t (some c.run))[u]? = some (some r) := hu
            rw [List.getElem?_set_ne (fun hx => hut hx.symm)] at hu'
            rw [hocc_ne u hut]
            exact hw.done0 u r hu'
        · intro u r hu
          by_cases hut : u = t
          · rw [hut] at hu ⊢
            have hu' : (p.channels.set t (some c.run))[t]? = some (some r) := hu
            rw [List.getElem?_set_eq_of_lt _ htc] at hu'
            injection hu' with hu'
            injection hu' with hu'
            exact ⟨c, hc, hu'.symm⟩
          · have hu' : (p.channels.set t (some c.run))[u]? = some (some r) := hu
            rw [List.getElem?_set_ne (fun hx => hut hx.symm)] at hu'
            exact hw.outcomes u r hu'
        · intro hm
          rcases mem_set_elim _ _ hm with hm | hm
          · cases hm
          · exact hw.termEmpty hm
        · intro hm
          rcases mem_set_elim _ _ hm with hm | hm
          · cases hm
          · exact hw.termStop hm
        · intro hj w hm
          rcases mem_set_elim _ _ hm with hm | hm
          · exfalso
            have := hw.joinedAll hj _ (List.getElem?_mem hi)
            cases this
          · exact hw.joinedAll hj w hm
        · intro hphase hm
          rcases mem_set_elim _ _ hm with hm | hm
          · cases hm
          · exact hw.notifWait hphase hm


theorem wakeAll_exec {w : WStatus} {t : Nat} :
    wakeAll w = WStatus.executing t ↔ w = WStatus.executing t := by
  cases w <;> simp [wakeAll]

theorem wakeAll_term {w : WStatus} :
    wakeAll w = WStatus.terminated ↔ w = WStatus.terminated := by
  cases w <;> simp [wakeAll]

theorem wakeAll_ne_wait {w : WStatus} : wakeAll w ≠ WStatus.waiting := by
  cases w <;> simp [wakeAll]

/-- Every step of the system preserves the invariant. -/
theorem wf_step {n : Nat} {p : Pool} {e : Event} {p₁ : Pool}
    (hw : WF n p) (h : step p e = some p₁) : WF n p₁ := by
  cases e with
  | enq c w =>
      dsimp only [step] at h
      cases he : enqueueCore p c with
      | error s => rw [he] at h; cases h
      | ok q =>
          obtain ⟨p', tid⟩ := q
          rw [he] at h
          dsimp only at h
          exact wf_notifyOne (wf_enq hw he) h
  | wake i => exact wf_wake hw h
  | exec i => exact wf_exec hw h
  | dstop =>
      dsimp only [step] at h
      by_cases hd : p.dtor = DtorPhase.idle
      · rw [if_pos hd] at h
        cases h
        refine ⟨hw.wlen, hw.clen, hw.sorted, hw.tvalid, hw.evalid, ?_,
          hw.pending1, hw.done0, hw.outcomes, hw.termEmpty, fun _ => rfl, ?_, ?_⟩
        · exact ⟨fun _ => by simp, fun _ => rfl⟩
        · intro hj
          have hj' : DtorPhase.stopSet = DtorPhase.joined := hj
          cases hj'
        · intro hphase
          have hphase' : DtorPhase.stopSet = DtorPhase.notified ∨
              DtorPhase.stopSet = DtorPhase.joined := hphase
          rcases hphase' with hx | hx <;> cases hx
      · rw [if_neg hd] at h
        cases h
  | dnotify =>
      dsimp only [step] at h
      by_cases hd : p.dtor = DtorPhase.stopSet
      · rw [if_pos hd] at h
        cases h
        have hstop : p.stop = true := hw.stopDtor.mpr (by rw [hd]; simp)
        have hocc : ∀ u : Nat,
            occ (Pool.mk (p.workers.map wakeAll) p.tasks p.stop p.comps p.channels
              DtorPhase.notified) u = occ p u := by
          intro u
          simp only [occ]
          rw [countP_map_congr _ wakeAll (by intro a; cases a <;> simp [wakeAll])]
        refine ⟨?_, hw.clen, hw.sorted, hw.tvalid, ?_, ?_, ?_, ?_, hw.outcomes,
          ?_, ?_, ?_, ?_⟩
        · simp [hw.wlen]
        · intro j t hj
          have hj' : (p.workers.map wakeAll)[j]? = some (WStatus.executing t) := hj
          rw [List.getElem?_map] at hj'
          obtain ⟨v, hv, hveq⟩ := Option.map_eq_some'.mp hj'
          exact hw.evalid j t (by rw [hv, wakeAll_exec.mp hveq])
        · exact ⟨fun _ => by simp, fun _ => hstop⟩
        · intro t ht
          rw [hocc t]
          exact hw.pending1 t ht
        · intro t r ht
          rw [hocc t]
          exact hw.done0 t r ht
        · intro hm
          obtain ⟨v, hvmem, hveq⟩ := List.mem_map.mp hm
          exact hw.termEmpty (wakeAll_term.mp hveq ▸ hvmem)
        · intro hm
          obtain ⟨v, hvmem, hveq⟩ := List.mem_map.mp hm
          exact hw.termStop (wakeAll_term.mp hveq ▸ hvmem)
        · intro hj
          have hj' : DtorPhase.notified = DtorPhase.joined := hj
          cases hj'
        · intro _ hm
          obtain ⟨v, _, hveq⟩ := List.mem_map.mp hm
          exact wakeAll_ne_wait hveq
      · rw [if_neg hd] at h
        cases h
  | djoin =>
      dsimp only [step] at h
      by_cases hd : p.dtor = DtorPhase.notified ∧ ∀ w ∈ p.workers,
          w = WStatus.terminated
      · rw [if_pos hd] at h
        cases h
        have hstop : p.stop = true := hw.stopDtor.mpr (by rw [hd.1]; simp)
        refine ⟨hw.wlen, hw.clen, hw.sorted, hw.tvalid, hw.evalid, ?_,
          hw.pending1, hw.done0, hw.outcomes, hw.termEmpty, fun _ => hstop,
          fun _ => hd.2, ?_⟩
        · exact ⟨fun _ => by simp, fun _ => hstop⟩
        · intro _ hm
          have := hd.2 _ hm
          cases this
      · rw [if_neg hd] at h
        cases h

/-- The invariant holds along every schedule. -/
theorem wf_run {n : Nat} {p : Pool} {tr : List Event} {p₁ : Pool}
    (hw : WF n p) (h : run p tr = some p₁) : WF n p₁ := by
  induction tr generalizing p with
  | nil =>
      unfold run at h
      cases h
      exact hw
  | cons e es ih =>
      unfold run at h
      cases hs : step p e with
      | none => rw [hs] at h; cases h
      | some q =>
          rw [hs] at h
          exact ih (wf_step hw hs) h

/-- Every reachable state of a pool satisfies the invariant. -/
theorem wf_reachable {n : Nat} {p : Pool} (h : Reachable n p) : WF n p := by
  obtain ⟨tr, htr⟩ := h
  exact wf_run (wf_init n) htr


/-- Schedules compose. -/
theorem run_append (p : Pool) (t₁ t₂ : List Event) :
    run p (t₁ ++ t₂) = (run p t₁).bind (fun q => run q t₂) := by
  induction t₁ generalizing p with
  | nil => simp [run]
  | cons e es ih =>
      simp only [List.cons_append, run]
      cases hs : step p e with
      | none => rfl
      | some q => exact ih q

/-- Every task id the pool knows has a result channel slot, pending or
completed. -/
def allCompleted (p : Pool) : Prop :=
  ∀ t < p.comps.length, ∃ r, p.channels[t]? = some (some r)

/-- Once every worker of a (non-empty) pool has terminated, every task ever
enqueued has been executed: its result channel holds an outcome. -/
theorem completed_of_allTerm {n : Nat} {p : Pool} (hw : WF n p) (hn : 1 ≤ n)
    (hall : ∀ w ∈ p.workers, w = WStatus.terminated) : allCompleted p := by
  intro t ht
  have htm : WStatus.terminated ∈ p.workers := by
    have hlen : 0 < p.workers.length := by rw [hw.wlen]; omega
    obtain ⟨wh, hmem⟩ := List.exists_mem_of_ne_nil _
      (List.length_pos.mp hlen)
    rw [← hall wh hmem]
    exact hmem
  have htasks : p.tasks = [] := hw.termEmpty htm
  have htc : t < p.channels.length := by rw [hw.clen]; exact ht
  obtain ⟨ch, hch⟩ : ∃ ch, p.channels[t]? = some ch :=
    ⟨_, List.getElem?_eq_getElem htc⟩
  cases ch with
  | some r => exact ⟨r, hch⟩
  | none =>
      exfalso
      have h1 := hw.pending1 t hch
      have hz : occ p t = 0 := by
        simp only [occ, htasks, List.countP_nil]
        rw [List.countP_eq_zero.mpr]
        intro a ha
        rw [hall a ha]
        simp
      omega

/-- A step can move a worker into the `terminated` status only when the stop
flag is set and the task queue is empty (the exit test of the worker loop). -/
theorem terminate_needs_stop_and_empty {p : Pool} {e : Event} {p₁ : Pool}
    {i : Nat} {w : WStatus}
    (h : step p e = some p₁) (hi : p.workers[i]? = some w)
    (hnt : w ≠ WStatus.terminated)
    (ht : p₁.workers[i]? = some WStatus.terminated) :
    p.stop = true ∧ p.tasks = [] := by
  cases e with
  | enq c wk =>
      exfalso
      dsimp only [step] at h
      cases he : enqueueCore p c with
      | error s => rw [he] at h; cases h
      | ok q =>
          obtain ⟨p', tid⟩ := q
          rw [he] at h
          dsimp only at h
          obtain ⟨_, _, rfl⟩ := enqueueCore_ok he
          cases wk with
          | none =>
              dsimp only [notifyOne] at h
              by_cases hmem : WStatus.waiting ∈ p.workers
              · rw [if_pos hmem] at h
                cases h
              · rw [if_neg hmem] at h
                cases h
                have ht' : p.workers[i]? = some WStatus.terminated := ht
                rw [hi] at ht'
                injection ht' with ht'
                exact hnt ht'
          | some j =>
              dsimp only [notifyOne] at h
              by_cases hj : p.workers[j]? = some WStatus.waiting
              · rw [if_pos hj] at h
                cases h
                have ht' : (p.workers.set j WStatus.ready)[i]? =
                    some WStatus.terminated := ht
                by_cases hij : i = j
                · rw [hij, List.getElem?_set_eq_of_lt _ (lt_of_getq hj)] at ht'
                  cases ht'
                · rw [List.getElem?_set_ne (fun hx => hij hx.symm)] at ht'
                  rw [hi] at ht'
                  injection ht' with ht'
                  exact hnt ht'
              · rw [if_neg hj] at h
                cases h
  | wake j =>
      dsimp only [step] at h
      unfold workerWake at h
      cases hj : p.workers[j]? with
      | none => rw [hj] at h; cases h
      | some sj =>
        rw [hj] at h
        cases sj with
        | waiting => cases h
        | executing u => cases h
        | terminated => cases h
        | ready =>
          cases htk : p.tasks with
          | nil =>
            rw [htk] at h
            cases hs : p.stop with
            | true =>
                exact ⟨rfl, rfl⟩
            | false =>
                exfalso
                rw [hs, if_neg (by simp)] at h
                cases h
                have ht' : (p.workers.set j WStatus.waiting)[i]? =
                    some WStatus.terminated := ht
                by_cases hij : i = j
                · rw [hij, List.getElem?_set_eq_of_lt _ (lt_of_getq hj)] at ht'
                  cases ht'
                · rw [List.getElem?_set_ne (fun hx => hij hx.symm)] at ht'
                  rw [hi] at ht'
                  injection ht' with ht'
                  exact hnt ht'
          | cons u us =>
            exfalso
            rw [htk] at h
            cases h
            have ht' : (p.workers.set j (WStatus.executing u))[i]? =
                some WStatus.terminated := ht
            by_cases hij : i = j
            · rw [hij, List.getElem?_set_eq_of_lt _ (lt_of_getq hj)] at ht'
              cases ht'
            · rw [List.getElem?_set_ne (fun hx => hij hx.symm)] at ht'
              rw [hi] at ht'
              injection ht' with ht'
              exact hnt ht'
  | exec j =>
      exfalso
      dsimp only [step] at h
      unfold workerExec at h
      cases hj : p.workers[j]? with
      | none => rw [hj] at h; cases h
      | some sj =>
        rw [hj] at h
        cases sj with
        | ready => cases h
        | waiting => cases h
        | terminated => cases h
        | executing u =>
          dsimp only at h
          cases hc : p.comps[u]? with
          | none => rw [hc] at h; cases h
          | some c =>
            rw [hc] at h
            cases h
            have ht' : (p.workers.set j WStatus.ready)[i]? =
                some WStatus.terminated := ht
            by_cases hij : i = j
            · rw [hij, List.getElem?_set_eq_of_lt _ (lt_of_getq hj)] at ht'
              cases ht'
            · rw [List.getElem?_set_ne (fun hx => hij hx.symm)] at ht'
              rw [hi] at ht'
              injection ht' with ht'
              exact hnt ht'
  | dstop =>
      exfalso
      dsimp only [step] at h
      by_cases hd : p.dtor = DtorPhase.idle
      · rw [if_pos hd] at h
        cases h
        have ht' : p.workers[i]? = some WStatus.terminated := ht
        rw [hi] at ht'
        injection ht' with ht'
        exact hnt ht'
      · rw [if_neg hd] at h
        cases h
  | dnotify =>
      exfalso
      dsimp only [step] at h
      by_cases hd : p.dtor = DtorPhase.stopSet
      · rw [if_pos hd] at h
        cases h
        have ht' : (p.workers.map wakeAll)[i]? = some WStatus.terminated := ht
        rw [List.getElem?_map] at ht'
        obtain ⟨v, hv, hveq⟩ := Option.map_eq_some'.mp ht'
        rw [hi] at hv
        injection hv with hv
        exact hnt (by rw [hv]; exact wakeAll_term.mp hveq)
      · rw [if_neg hd] at h
        cases h
  | djoin =>
      exfalso
      dsimp only [step] at h
      by_cases hd : p.dtor = DtorPhase.notified ∧ ∀ w ∈ p.workers,
          w = WStatus.terminated
      · rw [if_pos hd] at h
        cases h
        have ht' : p.workers[i]? = some WStatus.terminated := ht
        rw [hi] at ht'
        injection ht' with ht'
        exact hnt ht'
      · rw [if_neg hd] at h
        cases h


/-- `notify_one` only changes worker statuses. -/
theorem notifyOne_fields {p p₁ : Pool} {w : Option Nat}
    (h : notifyOne p w = some p₁) :
    p₁.tasks = p.tasks ∧ p₁.stop = p.stop ∧ p₁.comps = p.comps ∧
      p₁.channels = p.channels ∧ p₁.dtor = p.dtor := by
  cases w with
  | none =>
      dsimp only [notifyOne] at h
      by_cases hmem : WStatus.waiting ∈ p.workers
      · rw [if_pos hmem] at h
        cases h
      · rw [if_neg hmem] at h
        cases h
        exact ⟨rfl, rfl, rfl, rfl, rfl⟩
  | some i =>
      dsimp only [notifyOne] at h
      by_cases hi : p.workers[i]? = some WStatus.waiting
      · rw [if_pos hi] at h
        cases h
        exact ⟨rfl, rfl, rfl, rfl, rfl⟩
      · rw [if_neg hi] at h
        cases h

/-- The locked region at the top of the worker loop never touches the stop
flag, the computations, the result channels or the destructor phase. -/
theorem workerWake_fields {p p₁ : Pool} {i : Nat}
    (h : workerWake p i = some p₁) :
    p₁.stop = p.stop ∧ p₁.comps = p.comps ∧ p₁.channels = p.channels ∧
      p₁.dtor = p.dtor := by
  unfold workerWake at h
  cases hi : p.workers[i]? with
  | none => rw [hi] at h; cases h
  | some s =>
    rw [hi] at h
    cases s with
    | waiting => cases h
    | executing t => cases h
    | terminated => cases h
    | ready =>
      cases ht : p.tasks with
      | nil =>
        rw [ht] at h
        cases hs : p.stop with
        | true =>
            rw [hs, if_pos rfl] at h
            cases h
            exact ⟨rfl, rfl, rfl, rfl⟩
        | false =>
            rw [hs, if_neg (by simp)] at h
            cases h
            exact ⟨rfl, rfl, rfl, rfl⟩
      | cons t ts =>
        rw [ht] at h
        cases h
        exact ⟨rfl, rfl, rfl, rfl⟩

/-- Executing a task writes only that task's (previously pending) channel and
returns the worker to the top of its loop; everything else is unchanged. -/
theorem exec_writes_pending {n : Nat} {p p₁ : Pool} {i : Nat}
    (hw : WF n p) (h : workerExec p i = some p₁) :
    ∃ t c, p.workers[i]? = some (WStatus.executing t) ∧ p.comps[t]? = some c ∧
      p.channels[t]? = some none ∧
      p₁.channels = p.channels.set t (some c.run) ∧
      p₁.workers = p.workers.set i WStatus.ready ∧
      p₁.tasks = p.tasks ∧ p₁.stop = p.stop ∧ p₁.comps = p.comps ∧
      p₁.dtor = p.dtor := by
  unfold workerExec at h
  cases hi : p.workers[i]? with
  | none => rw [hi] at h; cases h
  | some s =>
    rw [hi] at h
    cases s with
    | ready => cases h
    | waiting => cases h
    | terminated => cases h
    | executing t =>
      dsimp only at h
      cases hc : p.comps[t]? with
      | none => rw [hc] at h; cases h
      | some c =>
        rw [hc] at h
        cases h
        have htlt : t < p.comps.length := hw.evalid i t hi
        have htc : t < p.channels.length := by rw [hw.clen]; exact htlt
        have hch : p.channels[t]? = some none := by
          obtain ⟨ch, hch⟩ : ∃ ch, p.channels[t]? = some ch :=
            ⟨_, List.getElem?_eq_getElem htc⟩
          cases ch with
          | none => exact hch
          | some r =>
            exfalso
            have h0 := hw.done0 t r hch
            have hwpos : 0 < p.workers.countP (fun w => w = WStatus.executing t) :=
              countP_pos_of_get _ hi (by simp)
            simp only [occ] at h0
            omega
        exact ⟨t, c, rfl, hc, hch, rfl, rfl, rfl, rfl, rfl, rfl⟩

/-- A completed result channel is never overwritten: once a task's outcome is
stored, every later state still holds exactly that outcome. -/
theorem completed_stable {n : Nat} {p : Pool} {e : Event} {p₁ : Pool}
    {t : Nat} {r : Except TErr Val}
    (hw : WF n p) (h : step p e = some p₁)
    (hc : p.channels[t]? = some (some r)) :
    p₁.channels[t]? = some (some r) := by
  cases e with
  | enq c w =>
      dsimp only [step] at h
      cases he : enqueueCore p c with
      | error s => rw [he] at h; cases h
      | ok q =>
          obtain ⟨p', tid⟩ := q
          rw [he] at h
          dsimp only at h
          obtain ⟨_, _, rfl⟩ := enqueueCore_ok he
          rw [(notifyOne_fields h).2.2.2.1]
          have : ((p.channels ++ [none])[t]? = p.channels[t]?) :=
            getq_append_lt _ _ _ (lt_of_getq hc)
          rw [show ({ p with
              comps    := p.comps ++ [c]
              channels := p.channels ++ [none]
              tasks    := p.tasks ++ [p.comps.length] } : Pool).channels =
            p.channels ++ [none] from rfl, this]
          exact hc
  | wake i =>
      rw [(workerWake_fields h).2.2.1]
      exact hc
  | exec i =>
      obtain ⟨u, c, hu, hcu, hpend, hch1, -⟩ := exec_writes_pending hw h
      rw [hch1]
      have hut : ¬u = t := by
        intro hx
        rw [hx, hc] at hpend
        cases hpend
      rw [List.getElem?_set_ne hut]
      exact hc
  | dstop =>
      dsimp only [step] at h
      by_cases hd : p.dtor = DtorPhase.idle
      · rw [if_pos hd] at h
        cases h
        exact hc
      · rw [if_neg hd] at h
        cases h
  | dnotify =>
      dsimp only [step] at h
      by_cases hd : p.dtor = DtorPhase.stopSet
      · rw [if_pos hd] at h
        cases h
        exact hc
      · rw [if_neg hd] at h
        cases h
  | djoin =>
      dsimp only [step] at h
      by_cases hd : p.dtor = DtorPhase.notified ∧ ∀ w ∈ p.workers,
          w = WStatus.terminated
      · rw [if_pos hd] at h
        cases h
        exact hc
      · rw [if_neg hd] at h
        cases h

/-- If the stop flag is set, any further step keeps it set and can only remove
tasks from the front of the queue, never add one. -/
theorem stop_mono {p : Pool} {e : Event} {p₁ : Pool}
    (h : step p e = some p₁) (hs : p.stop = true) :
    p₁.stop = true ∧ p₁.tasks.IsSuffix p.tasks := by
  cases e with
  | enq c w =>
      exfalso
      dsimp only [step] at h
      unfold enqueueCore at h
      rw [hs, if_pos rfl] at h
      cases h
  | wake i =>
      dsimp only [step] at h
      have hf := workerWake_fields h
      unfold workerWake at h
      cases hi : p.workers[i]? with
      | none => rw [hi] at h; cases h
      | some s =>
        rw [hi] at h
        cases s with
        | waiting => cases h
        | executing t => cases h
        | terminated => cases h
        | ready =>
          cases ht : p.tasks with
          | nil =>
            rw [ht] at h
            cases hs' : p.stop with
            | true =>
                rw [hs', if_pos rfl] at h
                cases h
                exact ⟨rfl, List.suffix_refl _⟩
            | false =>
                rw [hs] at hs'
                cases hs'
          | cons t ts =>
            rw [ht] at h
            cases h
            exact ⟨hs, List.suffix_cons t ts⟩
  | exec i =>
      dsimp only [step] at h
      unfold workerExec at h
      cases hi : p.workers[i]? with
      | none => rw [hi] at h; cases h
      | some s =>
        rw [hi] at h
        cases s with
        | ready => cases h
        | waiting => cases h
        | terminated => cases h
        | executing t =>
          dsimp only at h
          cases hc : p.comps[t]? with
          | none => rw [hc] at h; cases h
          | some c =>
            rw [hc] at h
            cases h
            exact ⟨hs, List.suffix_refl _⟩
  | dstop =>
      dsimp only [step] at h
      by_cases hd : p.dtor = DtorPhase.idle
      · rw [if_pos hd] at h
        cases h
        exact ⟨rfl, List.suffix_refl _⟩
      · rw [if_neg hd] at h
        cases h
  | dnotify =>
      dsimp only [step] at h
      by_cases hd : p.dtor = DtorPhase.stopSet
      · rw [if_pos hd] at h
        cases h
        exact ⟨hs, List.suffix_refl _⟩
      · rw [if_neg hd] at h
        cases h
  | djoin =>
      dsimp only [step] at h
      by_cases hd : p.dtor = DtorPhase.notified ∧ ∀ w ∈ p.workers,
          w = WStatus.terminated
      · rw [if_pos hd] at h
        cases h
        exact ⟨hs, List.suffix_refl _⟩
      · rw [if_neg hd] at h
        cases h


/-- Worker statuses that hold a popped, not yet executed task. -/
def isExec : WStatus → Bool
  | WStatus.executing _ => true
  | _ => false

/-- Work remaining before the pool is drained: queued tasks count twice (they
must be popped, then run), held tasks once. -/
def drainMeasure (p : Pool) : Nat :=
  2 * p.tasks.length + p.workers.countP isExec

theorem run_cons_of_step {p q : Pool} {e : Event} {tr : List Event}
    (h : step p e = some q) : run p (e :: tr) = run q tr := by
  show (match step p e with | some p₁ => run p₁ tr | none => none) = run q tr
  rw [h]

/-- An empty queue plus no held task means every allocated channel already has
its outcome. -/
theorem allCompleted_of_drained {n : Nat} {p : Pool} (hw : WF n p)
    (ht : p.tasks = []) (hx : p.workers.countP isExec = 0) : allCompleted p := by
  intro t htl
  have htc : t < p.channels.length := by rw [hw.clen]; exact htl
  obtain ⟨ch, hch⟩ : ∃ ch, p.channels[t]? = some ch :=
    ⟨_, List.getElem?_eq_getElem htc⟩
  cases ch with
  | some r => exact ⟨r, hch⟩
  | none =>
      exfalso
      have h1 := hw.pending1 t hch
      have hhold : p.workers.countP (fun w => w = WStatus.executing t) ≤
          p.workers.countP isExec := by
        apply List.countP_mono_left
        intro a _ ha
        have : a = WStatus.executing t := by simpa using ha
        rw [this]
        rfl
      simp only [occ, ht, List.countP_nil] at h1
      omega

/-- Reduction of `workerExec` at an executing worker. -/
theorem workerExec_eq {p : Pool} {j u : Nat} {c : Comp}
    (hj : p.workers[j]? = some (WStatus.executing u)) (hc : p.comps[u]? = some c) :
    workerExec p j = some { p with
      channels := p.channels.set u (some c.run)
      workers  := p.workers.set j WStatus.ready } := by
  unfold workerExec
  rw [hj]
  dsimp only
  rw [hc]

/-- Reduction of `workerWake` at a ready worker facing a non-empty queue. -/
theorem workerWake_pop_eq {p : Pool} {j u : Nat} {us : List Nat}
    (hj : p.workers[j]? = some WStatus.ready) (ht : p.tasks = u :: us) :
    workerWake p j = some { p with
      workers := p.workers.set j (WStatus.executing u)
      tasks   := us } := by
  unfold workerWake
  rw [hj]
  dsimp only
  rw [ht]

/-- From any state of a non-empty pool whose destructor has issued its
`notify_all`, the scheduler can drain the queue completely: there is a
continuation after which every task ever enqueued has its outcome stored. -/
theorem drain_aux {n : Nat} (hn : 1 ≤ n) :
    ∀ (m : Nat) (p : Pool), WF n p → p.dtor = DtorPhase.notified →
      drainMeasure p ≤ m →
      ∃ tr p₁, run p tr = some p₁ ∧ allCompleted p₁ := by
  intro m
  induction m with
  | zero =>
      intro p hw hd hm
      unfold drainMeasure at hm
      refine ⟨[], p, rfl, allCompleted_of_drained hw ?_ ?_⟩
      · have : p.tasks.length = 0 := by omega
        exact List.length_eq_zero.mp this
      · omega
  | succ m ih =>
      intro p hw hd hm
      by_cases hex : 0 < p.workers.countP isExec
      · obtain ⟨wst, hmem, hpw⟩ := List.countP_pos_iff.mp hex
        cases wst with
        | ready => simp [isExec] at hpw
        | waiting => simp [isExec] at hpw
        | terminated => simp [isExec] at hpw
        | executing u =>
            obtain ⟨j, hj⟩ := getq_of_mem hmem
            have hu : u < p.comps.length := hw.evalid j u hj
            obtain ⟨c, hc⟩ : ∃ c, p.comps[u]? = some c :=
              ⟨_, List.getElem?_eq_getElem hu⟩
            have hstep : workerExec p j = some { p with
                channels := p.channels.set u (some c.run)
                workers  := p.workers.set j WStatus.ready } := workerExec_eq hj hc
            have hw' := wf_exec hw hstep
            have hmeas : drainMeasure { p with
                channels := p.channels.set u (some c.run)
                workers  := p.workers.set j WStatus.ready } ≤ m := by
              have hcs := countP_set_comm isExec p.workers j
                (WStatus.executing u) WStatus.ready hj
              rw [if_pos (by rfl), if_neg (by simp [isExec])] at hcs
              unfold drainMeasure at hm ⊢
              simp only
              omega
            obtain ⟨tr, p₁, htr, hcomp⟩ := ih _ hw' hd hmeas
            exact ⟨Event.exec j :: tr, p₁,
              by rw [run_cons_of_step (show step p (Event.exec j) = some _ from hstep)]
                 exact htr, hcomp⟩
      · have hex0 : p.workers.countP isExec = 0 := by omega
        cases ht : p.tasks with
        | nil =>
            exact ⟨[], p, rfl, allCompleted_of_drained hw ht hex0⟩
        | cons u us =>
            have h0lt : 0 < p.workers.length := by rw [hw.wlen]; omega
            obtain ⟨w0, h0⟩ : ∃ w0, p.workers[0]? = some w0 :=
              ⟨_, List.getElem?_eq_getElem h0lt⟩
            cases w0 with
            | waiting =>
                exact absurd (List.getElem?_mem h0) (hw.notifWait (Or.inl hd))
            | terminated =>
                exfalso
                have := hw.termEmpty (List.getElem?_mem h0)
                rw [ht] at this
                cases this
            | executing v =>
                exfalso
                have := countP_pos_of_get isExec h0 (by rfl)
                omega
            | ready =>
                have hstep : workerWake p 0 = some { p with
                    workers := p.workers.set 0 (WStatus.executing u)
                    tasks   := us } := workerWake_pop_eq h0 ht
                have hw' := wf_wake hw hstep
                have hmeas : drainMeasure { p with
                    workers := p.workers.set 0 (WStatus.executing u)
                    tasks   := us } ≤ m := by
                  have hcs := countP_set_comm isExec p.workers 0
                    WStatus.ready (WStatus.executing u) h0
                  rw [if_neg (by simp [isExec]), if_pos (by rfl)] at hcs
                  unfold drainMeasure at hm ⊢
                  simp only
                  rw [ht] at hm
                  simp only [List.length_cons] at hm
                  omega
                obtain ⟨tr, p₁, htr, hcomp⟩ := ih _ hw' hd hmeas
                exact ⟨Event.wake 0 :: tr, p₁,
                  by rw [run_cons_of_step
                        (show step p (Event.wake 0) = some _ from hstep)]
                     exact htr, hcomp⟩

/-- From any reachable state of a pool with at least one worker there is a
schedule that completes every task ever enqueued (in particular the shutdown
protocol does exactly that). -/
theorem reach_completion {n : Nat} {p : Pool} (hw : WF n p) (hn : 1 ≤ n) :
    ∃ tr p₁, run p tr = some p₁ ∧ allCompleted p₁ := by
  cases hd : p.dtor with
  | idle =>
      have hstep1 : step p Event.dstop =
          some { p with stop := true, dtor := DtorPhase.stopSet } := by
        dsimp only [step]
        rw [if_pos hd]
      have hw1 := wf_step hw hstep1
      have hstep2 : step { p with stop := true, dtor := DtorPhase.stopSet }
          Event.dnotify = some { p with
            workers := p.workers.map wakeAll
            stop := true
            dtor := DtorPhase.notified } := by
        dsimp only [step]
        rw [if_pos rfl]
      have hw2 := wf_step hw1 hstep2
      obtain ⟨tr, p₁, htr, hcomp⟩ := drain_aux hn (drainMeasure _) _ hw2 rfl
        (le_refl _)
      exact ⟨Event.dstop :: Event.dnotify :: tr, p₁,
        by rw [run_cons_of_step hstep1, run_cons_of_step hstep2]; exact htr, hcomp⟩
  | stopSet =>
      have hstep2 : step p Event.dnotify = some { p with
          workers := p.workers.map wakeAll
          dtor := DtorPhase.notified } := by
        dsimp only [step]
        rw [if_pos hd]
      have hw2 := wf_step hw hstep2
      obtain ⟨tr, p₁, htr, hcomp⟩ := drain_aux hn (drainMeasure _) _ hw2 rfl
        (le_refl _)
      exact ⟨Event.dnotify :: tr, p₁,
        by rw [run_cons_of_step hstep2]; exact htr, hcomp⟩
  | notified =>
      exact drain_aux hn (drainMeasure p) p hw hd (le_refl _)
  | joined =>
      exact ⟨[], p, rfl, completed_of_allTerm hw hn (hw.joinedAll hd)⟩


/-- Reduction of `workerWake` at a ready worker: empty queue, stop clear —
the wait predicate is false, the worker blocks. -/
theorem workerWake_wait_eq {p : Pool} {j : Nat}
    (hj : p.workers[j]? = some WStatus.ready) (ht : p.tasks = [])
    (hs : p.stop = false) :
    workerWake p j = some { p with workers := p.workers.set j WStatus.waiting } := by
  unfold workerWake
  rw [hj]
  dsimp only
  rw [ht, hs]
  simp

/-- Reduction of `workerWake` at a ready worker: empty queue, stop set — the
exit test fires and the worker terminates. -/
theorem workerWake_term_eq {p : Pool} {j : Nat}
    (hj : p.workers[j]? = some WStatus.ready) (ht : p.tasks = [])
    (hs : p.stop = true) :
    workerWake p j =
      some { p with workers := p.workers.set j WStatus.terminated } := by
  unfold workerWake
  rw [hj]
  dsimp only
  rw [ht, hs]
  simp

/-! ### The claims -/

/-- C1: a call of `ThreadPool::enqueue` made while the `stop` flag is true
throws `std::runtime_error("enqueue on stopped ThreadPool")` synchronously; no
task object survives the unwinding and nothing is pushed onto the task queue
(the system has no transition for such a call: the pool state is exactly what
it was before). -/
theorem claim_C1_enqueue_rejected_when_stopping (p : Pool) (c : Comp)
    (w : Option Nat) (h : p.stop = true) :
    enqueueCore p c = Except.error "enqueue on stopped ThreadPool" ∧
      (∀ (q : Pool) (tid : Nat), ¬enqueueCore p c = Except.ok (q, tid)) ∧
      step p (Event.enq c w) = none := by
  have hcore : enqueueCore p c = Except.error "enqueue on stopped ThreadPool" := by
    unfold enqueueCore
    rw [h, if_pos rfl]
  refine ⟨hcore, ?_, ?_⟩
  · intro q tid hq
    rw [hcore] at hq
    cases hq
  · dsimp only [step]
    rw [hcore]

/-- Pool already stopping, used to witness C1. -/
def c1pool : Pool :=
  { workers := [WStatus.ready]
    tasks := []
    stop := true
    comps := []
    channels := []
    dtor := DtorPhase.stopSet }

theorem claim_C1_witness :
    enqueueCore c1pool ⟨Except.ok 7⟩ =
        Except.error "enqueue on stopped ThreadPool" ∧
      (∀ (q : Pool) (tid : Nat), ¬enqueueCore c1pool ⟨Except.ok 7⟩ =
        Except.ok (q, tid)) ∧
      step c1pool (Event.enq ⟨Except.ok 7⟩ none) = none :=
  claim_C1_enqueue_rejected_when_stopping c1pool ⟨Except.ok 7⟩ none rfl

/-- C3: each pass of a worker through the locked region at the top of its pull
loop behaves as specified: with an empty queue and the pool not stopping it
blocks in `condition.wait` (status `waiting`, leaving only a notification to
resume it); with an empty queue and the pool stopping it returns the
terminate signal (exits the loop, status `terminated`); in every other case it
removes and returns exactly the head task of the queue, leaving the tail. -/
theorem claim_C3_worker_pull_loop (p : Pool) (i : Nat)
    (h : p.workers[i]? = some WStatus.ready) :
    (p.tasks = [] → p.stop = false →
      workerWake p i = some { p with workers := p.workers.set i WStatus.waiting }) ∧
    (p.tasks = [] → p.stop = true →
      workerWake p i =
        some { p with workers := p.workers.set i WStatus.terminated }) ∧
    (∀ (t : Nat) (ts : List Nat), p.tasks = t :: ts →
      workerWake p i = some { p with
        workers := p.workers.set i (WStatus.executing t)
        tasks   := ts }) :=
  ⟨fun ht hs => workerWake_wait_eq h ht hs,
   fun ht hs => workerWake_term_eq h ht hs,
   fun _ _ ht => workerWake_pop_eq h ht⟩

/-- Running pool with an idle worker and an empty queue (C3 witness, blocking
case). -/
def c3aPool : Pool :=
  { workers := [WStatus.ready]
    tasks := []
    stop := false
    comps := []
    channels := []
    dtor := DtorPhase.idle }

/-- Stopping pool with an idle worker and an empty queue (C3 witness,
terminate case). -/
def c3bPool : Pool :=
  { workers := [WStatus.ready]
    tasks := []
    stop := true
    comps := []
    channels := []
    dtor := DtorPhase.notified }

/-- Running pool with an idle worker and two queued tasks (C3 witness, pop
case). -/
def c3cPool : Pool :=
  { workers := [WStatus.ready]
    tasks := [0, 1]
    stop := false
    comps := [⟨Except.ok 1⟩, ⟨Except.ok 2⟩]
    channels := [none, none]
    dtor := DtorPhase.idle }

theorem claim_C3_witness :
    (workerWake c3aPool 0 =
      some { c3aPool with workers := [WStatus.waiting] }) ∧
    (workerWake c3bPool 0 =
      some { c3bPool with workers := [WStatus.terminated] }) ∧
    (workerWake c3cPool 0 =
      some { c3cPool with workers := [WStatus.executing 0], tasks := [1] }) :=
  ⟨(claim_C3_worker_pull_loop c3aPool 0 rfl).1 rfl rfl,
   (claim_C3_worker_pull_loop c3bPool 0 rfl).2.1 rfl rfl,
   (claim_C3_worker_pull_loop c3cPool 0 rfl).2.2 0 [1] rfl⟩

/-- C4: if the callable of the task a worker is running raises a failure, the
failure is captured into that task's result channel as a failure outcome
(`packaged_task` stores the exception); the worker does not crash — it goes
back to the top of its loop (`ready`) unconditionally — and the stored failure
is surfaced (re-raised) exactly when the submitter calls the handle's
blocking `get`, modelled by `getHandle`. -/
theorem claim_C4_task_failure_captured (p : Pool) (i t : Nat) (c : Comp)
    (msg : TErr)
    (hi : p.workers[i]? = some (WStatus.executing t))
    (hc : p.comps[t]? = some c)
    (hfail : c.run = Except.error msg)
    (hlen : t < p.channels.length) :
    workerExec p i = some { p with
        channels := p.channels.set t (some (Except.error msg))
        workers  := p.workers.set i WStatus.ready } ∧
    getHandle { p with
        channels := p.channels.set t (some (Except.error msg))
        workers  := p.workers.set i WStatus.ready } t =
      some (Except.error msg) ∧
    (p.workers.set i WStatus.ready)[i]? = some WStatus.ready := by
  refine ⟨?_, ?_, ?_⟩
  · have := workerExec_eq hi hc
    rw [hfail] at this
    exact this
  · unfold getHandle
    rw [show ({ p with
        channels := p.channels.set t (some (Except.error msg))
        workers  := p.workers.set i WStatus.ready } : Pool).channels =
      p.channels.set t (some (Except.error msg)) from rfl]
    rw [List.getElem?_set_eq_of_lt _ hlen]
    rfl
  · exact List.getElem?_set_eq_of_lt _ (lt_of_getq hi)

/-- Pool whose single worker is about to run a task whose callable raises
(C4 witness). -/
def c4pool : Pool :=
  { workers := [WStatus.executing 0]
    tasks := []
    stop := false
    comps := [⟨Except.error "boom"⟩]
    channels := [none]
    dtor := DtorPhase.idle }

theorem claim_C4_witness :
    workerExec c4pool 0 = some { c4pool with
        channels := [some (Except.error "boom")]
        workers  := [WStatus.ready] } ∧
    getHandle { c4pool with
        channels := [some (Except.error "boom")]
        workers  := [WStatus.ready] } 0 = some (Except.error "boom") ∧
    ([WStatus.executing 0].set 0 WStatus.ready)[0]? = some WStatus.ready := by
  have h := claim_C4_task_failure_captured c4pool 0 0 ⟨Except.error "boom"⟩
    "boom" rfl rfl rfl (by decide)
  exact h

/-- C7: the stop flag starts false at construction, and from any state in
which it is true, every enabled step keeps it true and leaves the task queue a
suffix of what it was — tasks can only be popped from the front, never added,
once the flag is set. -/
theorem claim_C7_stop_flag_monotone (threads : Nat) :
    (init threads).stop = false ∧
    (∀ (p : Pool) (e : Event) (p₁ : Pool), step p e = some p₁ →
      p.stop = true → p₁.stop = true ∧ p₁.tasks.IsSuffix p.tasks) :=
  ⟨rfl, fun _ _ _ h hs => stop_mono h hs⟩

/-- Stopping pool with a queued task and a ready worker (C7 witness). -/
def c7pool : Pool :=
  { workers := [WStatus.ready]
    tasks := [0]
    stop := true
    comps := [⟨Except.ok 3⟩]
    channels := [none]
    dtor := DtorPhase.stopSet }

theorem claim_C7_witness :
    (init 2).stop = false ∧
    (({ c7pool with
        workers := [WStatus.executing 0]
        tasks := ([] : List Nat) } : Pool).stop = true ∧
      (({ c7pool with
        workers := [WStatus.executing 0]
        tasks := ([] : List Nat) } : Pool).tasks.IsSuffix c7pool.tasks)) :=
  ⟨(claim_C7_stop_flag_monotone 2).1,
   (claim_C7_stop_flag_monotone 1).2 c7pool (Event.wake 0) _ (by decide) rfl⟩

/-- C9: `push` appends the new task at the tail of the queue under the lock
and always succeeds while the pool is not stopping — there is no capacity
check, the hypothesis holds for a queue of any length; the `notify_one` that
follows wakes exactly the one chosen waiting worker (only that slot changes,
from `waiting` to `ready`) and is a no-op exactly when no worker is waiting;
the destructor's `notify_all` wakes every waiting worker at once. -/
theorem claim_C9_push_and_wakeups (p : Pool) (c : Comp) :
    (p.stop = false →
      enqueueCore p c = Except.ok ({ p with
          comps    := p.comps ++ [c]
          channels := p.channels ++ [none]
          tasks    := p.tasks ++ [p.comps.length] }, p.comps.length)) ∧
    (∀ (i : Nat) (p₁ : Pool), notifyOne p (some i) = some p₁ →
      p.workers[i]? = some WStatus.waiting ∧
      p₁ = { p with workers := p.workers.set i WStatus.ready }) ∧
    (notifyOne p none = some p ↔ WStatus.waiting ∉ p.workers) ∧
    (p.dtor = DtorPhase.stopSet →
      step p Event.dnotify = some { p with
        workers := p.workers.map wakeAll
        dtor := DtorPhase.notified }) := by
  refine ⟨?_, ?_, ?_, ?_⟩
  · intro hs
    unfold enqueueCore
    rw [hs]
    simp
  · intro i p₁ h
    dsimp only [notifyOne] at h
    by_cases hi : p.workers[i]? = some WStatus.waiting
    · rw [if_pos hi] at h
      cases h
      exact ⟨hi, rfl⟩
    · rw [if_neg hi] at h
      cases h
  · constructor
    · intro h hmem
      dsimp only [notifyOne] at h
      rw [if_pos hmem] at h
      cases h
    · intro hmem
      dsimp only [notifyOne]
      rw [if_neg hmem]
  · intro hd
    dsimp only [step]
    rw [if_pos hd]

/-- Pool with one waiting and one executing worker (C9 witness). -/
def c9pool : Pool :=
  { workers := [WStatus.waiting, WStatus.executing 0]
    tasks := []
    stop := false
    comps := [⟨Except.ok 4⟩]
    channels := [none]
    dtor := DtorPhase.idle }

/-- Stopping pool with waiting workers (C9 witness, `notify_all` part). -/
def c9bPool : Pool :=
  { workers := [WStatus.waiting, WStatus.waiting, WStatus.executing 0]
    tasks := []
    stop := true
    comps := [⟨Except.ok 4⟩]
    channels := [none]
    dtor := DtorPhase.stopSet }

theorem claim_C9_witness :
    (enqueueCore c9pool ⟨Except.ok 9⟩ = Except.ok ({ c9pool with
        comps    := [⟨Except.ok 4⟩, ⟨Except.ok 9⟩]
        channels := [none, none]
        tasks    := [1] }, 1)) ∧
    (c9pool.workers[0]? = some WStatus.waiting ∧
      ({ c9pool with workers := [WStatus.ready, WStatus.executing 0] } : Pool) =
        { c9pool with workers := c9pool.workers.set 0 WStatus.ready }) ∧
    (step c9bPool Event.dnotify = some { c9bPool with
        workers := [WStatus.ready, WStatus.ready, WStatus.executing 0]
        dtor := DtorPhase.notified }) := by
  refine ⟨?_, ?_, ?_⟩
  · have h := (claim_C9_push_and_wakeups c9pool ⟨Except.ok 9⟩).1 rfl
    exact h
  · exact (claim_C9_push_and_wakeups c9pool ⟨Except.ok 9⟩).2.1 0
      { c9pool with workers := c9pool.workers.set 0 WStatus.ready } rfl
  · have h := (claim_C9_push_and_wakeups c9bPool ⟨Except.ok 9⟩).2.2.2 rfl
    exact h


/-- C2: the destructor (`~ThreadPool`) sets the stop flag under the lock, its
`notify_all` wakes every waiting worker, and its join loop returns only when
every worker has terminated; a worker can terminate only when the stop flag is
set and the task queue is empty; consequently, for every pool with at least
one worker thread (the interface requires a thread count ≥ 1), once the
destructor has returned, every worker has terminated and every previously
enqueued task has been executed — its result channel holds an outcome. -/
theorem claim_C2_graceful_shutdown (n : Nat) (p : Pool) :
    (p.dtor = DtorPhase.idle →
      step p Event.dstop =
        some { p with stop := true, dtor := DtorPhase.stopSet }) ∧
    (p.dtor = DtorPhase.stopSet →
      step p Event.dnotify =
        some { p with
                workers := p.workers.map wakeAll
                dtor := DtorPhase.notified }) ∧
    (∀ p₁ : Pool, step p Event.djoin = some p₁ →
      ∀ w ∈ p.workers, w = WStatus.terminated) ∧
    (∀ (e : Event) (p₁ : Pool) (i : Nat) (w : WStatus), step p e = some p₁ →
      p.workers[i]? = some w → w ≠ WStatus.terminated →
      p₁.workers[i]? = some WStatus.terminated →
      p.stop = true ∧ p.tasks = []) ∧
    (1 ≤ n → Reachable n p → p.dtor = DtorPhase.joined →
      (∀ w ∈ p.workers, w = WStatus.terminated) ∧ allCompleted p) := by
  refine ⟨?_, ?_, ?_, ?_, ?_⟩
  · intro hd
    dsimp only [step]
    rw [if_pos hd]
  · intro hd
    dsimp only [step]
    rw [if_pos hd]
  · intro p₁ h
    dsimp only [step] at h
    by_cases hd : p.dtor = DtorPhase.notified ∧ ∀ w ∈ p.workers,
        w = WStatus.terminated
    · exact hd.2
    · rw [if_neg hd] at h
      cases h
  · intro e p₁ i w h hi hnt ht
    exact terminate_needs_stop_and_empty h hi hnt ht
  · intro hn hre hj
    have hw := wf_reachable hre
    have hall := hw.joinedAll hj
    exact ⟨hall, completed_of_allTerm hw hn hall⟩

/-- Full lifecycle of a one-worker pool: one task is enqueued, executed, then
the pool is destroyed (C2 witness). -/
def c2trace : List Event :=
  [Event.enq ⟨Except.ok 9⟩ none, Event.wake 0, Event.exec 0,
   Event.dstop, Event.dnotify, Event.wake 0, Event.djoin]

/-- The state in which `c2trace` leaves the pool: destructor returned, worker
terminated, task executed. -/
def c2pool : Pool :=
  { workers := [WStatus.terminated]
    tasks := []
    stop := true
    comps := [⟨Except.ok 9⟩]
    channels := [some (Except.ok 9)]
    dtor := DtorPhase.joined }

theorem claim_C2_witness :
    (∀ w ∈ c2pool.workers, w = WStatus.terminated) ∧ allCompleted c2pool :=
  (claim_C2_graceful_shutdown 1 c2pool).2.2.2.2 (by decide)
    ⟨c2trace, by decide⟩ rfl

/-- C5: FIFO availability.  In every reachable state, whenever a worker's pass
through the locked region removes a task `b` from the queue, `b` was the head
of the queue, exactly the head is removed, and every task still in the queue
afterwards has a strictly larger id — task ids are allocated consecutively at
submission, so every remaining task was pushed strictly after `b`.  Hence no
worker ever removes (or observes at the front) a later-pushed task while an
earlier-pushed one is still present. -/
theorem claim_C5_fifo_availability (n : Nat) (p p₁ : Pool) (i b : Nat)
    (hre : Reachable n p)
    (h : step p (Event.wake i) = some p₁)
    (hb : p₁.workers[i]? = some (WStatus.executing b)) :
    p.tasks.head? = some b ∧ p₁.tasks = p.tasks.tail ∧
      ∀ a ∈ p₁.tasks, b < a := by
  have hw := wf_reachable hre
  have h' : workerWake p i = some p₁ := h
  unfold workerWake at h'
  cases hi : p.workers[i]? with
  | none => rw [hi] at h'; cases h'
  | some s =>
    rw [hi] at h'
    cases s with
    | waiting => cases h'
    | executing t => cases h'
    | terminated => cases h'
    | ready =>
      have hilt : i < p.workers.length := lt_of_getq hi
      cases ht : p.tasks with
      | nil =>
        rw [ht] at h'
        cases hs : p.stop with
        | true =>
            rw [hs, if_pos rfl] at h'
            cases h'
            exfalso
            have hb' : (p.workers.set i WStatus.terminated)[i]? =
                some (WStatus.executing b) := hb
            rw [List.getElem?_set_eq_of_lt _ hilt] at hb'
            cases hb'
        | false =>
            rw [hs, if_neg (by simp)] at h'
            cases h'
            exfalso
            have hb' : (p.workers.set i WStatus.waiting)[i]? =
                some (WStatus.executing b) := hb
            rw [List.getElem?_set_eq_of_lt _ hilt] at hb'
            cases hb'
      | cons t ts =>
        rw [ht] at h'
        cases h'
        have hb' : (p.workers.set i (WStatus.executing t))[i]? =
            some (WStatus.executing b) := hb
        rw [List.getElem?_set_eq_of_lt _ hilt] at hb'
        injection hb' with hb'
        injection hb' with hb'
        subst hb'
        refine ⟨rfl, rfl, ?_⟩
        have hsorted := hw.sorted
        rw [ht] at hsorted
        exact (List.pairwise_cons.mp hsorted).1

/-- Reachable one-worker pool holding two queued tasks (C5 witness). -/
def c5pool : Pool :=
  { workers := [WStatus.ready]
    tasks := [0, 1]
    stop := false
    comps := [⟨Except.ok 1⟩, ⟨Except.ok 2⟩]
    channels := [none, none]
    dtor := DtorPhase.idle }

/-- `c5pool` after its worker pops the head task (C5 witness). -/
def c5poolAfter : Pool :=
  { workers := [WStatus.executing 0]
    tasks := [1]
    stop := false
    comps := [⟨Except.ok 1⟩, ⟨Except.ok 2⟩]
    channels := [none, none]
    dtor := DtorPhase.idle }

theorem claim_C5_witness :
    c5pool.tasks.head? = some 0 ∧ c5poolAfter.tasks = c5pool.tasks.tail ∧
      ∀ a ∈ c5poolAfter.tasks, 0 < a :=
  claim_C5_fifo_availability 1 c5pool c5poolAfter 0 0
    ⟨[Event.enq ⟨Except.ok 1⟩ none, Event.enq ⟨Except.ok 2⟩ none], by decide⟩
    (by decide) (by decide)


/-- The computation of the driver scenario in `example.cpp`: task `i` computes
`i * i`. -/
def c6comp (i : Nat) : Comp := ⟨Except.ok ((i : Int) * i)⟩

/-- The driver scenario of `example.cpp`: a pool of 4 workers, 8 submissions
of `[i]{ return i * i; }`, the workers then claiming the tasks round-robin. -/
def c6trace : List Event :=
  ((List.range 8).map fun i => Event.enq (c6comp i) none) ++
    (((List.range 8).map fun k => [Event.wake (k % 4), Event.exec (k % 4)]).flatten)

/-- The state `c6trace` reaches: all 8 tasks completed with `i * i`. -/
def c6pool : Pool :=
  { workers := [WStatus.ready, WStatus.ready, WStatus.ready, WStatus.ready]
    tasks := []
    stop := false
    comps := (List.range 8).map c6comp
    channels := (List.range 8).map fun i => some (Except.ok ((i : Int) * i))
    dtor := DtorPhase.idle }

/-- C6: a handle's blocking `get` yields exactly the outcome of invoking the
submitted callable on its bound arguments: in every reachable state, a
completed result channel holds exactly `c.run` for the computation `c` the
task wraps, and `getHandle` returns it.  In particular, for the `example.cpp`
scenario — a pool of 4 workers given 8 tasks computing `i * i` for
`i = 0..7` — the 8 handles yield exactly `0, 1, 4, 9, 16, 25, 36, 49` (as a
set: {0,1,4,9,16,25,36,49}). -/
theorem claim_C6_handle_yields_value :
    (∀ (n : Nat) (p : Pool) (t : Nat) (r : Except TErr Val),
      Reachable n p → p.channels[t]? = some (some r) →
        (∃ c, p.comps[t]? = some c ∧ r = c.run) ∧ getHandle p t = some r) ∧
    (run (init 4) c6trace = some c6pool ∧
      (List.range 8).map (fun i => getHandle c6pool i) =
        [some (Except.ok 0), some (Except.ok 1), some (Except.ok 4),
         some (Except.ok 9), some (Except.ok 16), some (Except.ok 25),
         some (Except.ok 36), some (Except.ok 49)]) := by
  refine ⟨?_, ?_, ?_⟩
  · intro n p t r hre hch
    have hw := wf_reachable hre
    refine ⟨hw.outcomes t r hch, ?_⟩
    unfold getHandle
    rw [hch]
    rfl
  · decide
  · decide

theorem claim_C6_witness :
    (∃ c, c6pool.comps[0]? = some c ∧ Except.ok 0 = c.run) ∧
      getHandle c6pool 0 = some (Except.ok 0) :=
  claim_C6_handle_yields_value.1 4 c6pool 0 (Except.ok 0)
    ⟨c6trace, by decide⟩ (by decide)


/-- C8: (a) from every reachable state of a pool with at least one worker
(the interface requires a thread count ≥ 1) there is a continuation under
which every submitted task ends in exactly one of the two outcomes —
completed-with-value (`Except.ok`) or completed-with-failure (`Except.error`);
(b) a stored outcome is never overwritten by any later step; and (c) a worker
can only execute a task it holds, whose channel is still pending — so each
task is removed from the queue and invoked at most once: the single write of
its channel happens at that one invocation. -/
theorem claim_C8_exactly_one_outcome (n : Nat) (p : Pool)
    (hre : Reachable n p) (hn : 1 ≤ n) :
    (∃ tr p₁, run p tr = some p₁ ∧
      ∀ t < p₁.comps.length, ∃ r, p₁.channels[t]? = some (some r) ∧
        ((∃ v, r = Except.ok v) ∨ (∃ msg, r = Except.error msg))) ∧
    (∀ (e : Event) (p₁ : Pool) (t : Nat) (r : Except TErr Val),
      step p e = some p₁ → p.channels[t]? = some (some r) →
        p₁.channels[t]? = some (some r)) ∧
    (∀ (i : Nat) (p₁ : Pool), workerExec p i = some p₁ →
      ∃ t c, p.workers[i]? = some (WStatus.executing t) ∧
        p.comps[t]? = some c ∧ p.channels[t]? = some none ∧
        p₁.channels = p.channels.set t (some c.run)) := by
  have hw := wf_reachable hre
  refine ⟨?_, ?_, ?_⟩
  · obtain ⟨tr, p₁, htr, hcomp⟩ := reach_completion hw hn
    refine ⟨tr, p₁, htr, ?_⟩
    intro t ht
    obtain ⟨r, hr⟩ := hcomp t ht
    refine ⟨r, hr, ?_⟩
    cases r with
    | ok v => exact Or.inl ⟨v, rfl⟩
    | error m => exact Or.inr ⟨m, rfl⟩
  · intro e p₁ t r hs hc
    exact completed_stable hw hs hc
  · intro i p₁ hs
    obtain ⟨t, c, h1, h2, h3, h4, -⟩ := exec_writes_pending hw hs
    exact ⟨t, c, h1, h2, h3, h4⟩

theorem claim_C8_witness :
    (∃ tr p₁, run (init 1) tr = some p₁ ∧
      ∀ t < p₁.comps.length, ∃ r, p₁.channels[t]? = some (some r) ∧
        ((∃ v, r = Except.ok v) ∨ (∃ msg, r = Except.error msg))) ∧
    (∀ (e : Event) (p₁ : Pool) (t : Nat) (r : Except TErr Val),
      step (init 1) e = some p₁ → (init 1).channels[t]? = some (some r) →
        p₁.channels[t]? = some (some r)) ∧
    (∀ (i : Nat) (p₁ : Pool), workerExec (init 1) i = some p₁ →
      ∃ t c, (init 1).workers[i]? = some (WStatus.executing t) ∧
        (init 1).comps[t]? = some c ∧ (init 1).channels[t]? = some none ∧
        p₁.channels = (init 1).channels.set t (some c.run)) :=
  claim_C8_exactly_one_outcome 1 (init 1) ⟨[], rfl⟩ (by decide)

/-- In a pool constructed with zero threads, no worker exists and hence no
result channel is ever written, in any reachable state. -/
theorem zero_inv {p : Pool} (h : Reachable 0 p) :
    p.workers = [] ∧ ∀ ch ∈ p.channels, ch = none := by
  obtain ⟨tr, htr⟩ := h
  suffices haux : ∀ (tr : List Event) (q p₁ : Pool), q.workers = [] →
      (∀ ch ∈ q.channels, ch = none) → run q tr = some p₁ →
      p₁.workers = [] ∧ ∀ ch ∈ p₁.channels, ch = none by
    exact haux tr (init 0) p rfl (by simp [init]) htr
  intro tr
  induction tr with
  | nil =>
      intro q p₁ hqw hqc h1
      unfold run at h1
      cases h1
      exact ⟨hqw, hqc⟩
  | cons e es ih =>
      intro q p₁ hqw hqc h1
      unfold run at h1
      cases hs : step q e with
      | none => rw [hs] at h1; cases h1
      | some q₂ =>
          rw [hs] at h1
          have hq₂ : q₂.workers = [] ∧ ∀ ch ∈ q₂.channels, ch = none := by
            clear h1 ih
            cases e with
            | enq c w =>
                dsimp only [step] at hs
                cases he : enqueueCore q c with
                | error s => rw [he] at hs; cases hs
                | ok pr =>
                    obtain ⟨q', tid⟩ := pr
                    rw [he] at hs
                    dsimp only at hs
                    obtain ⟨-, -, rfl⟩ := enqueueCore_ok he
                    cases w with
                    | some j =>
                        dsimp only [notifyOne] at hs
                        rw [if_neg (by
                          rw [show ({ q with
                              comps := q.comps ++ [c]
                              channels := q.channels ++ [none]
                              tasks := q.tasks ++ [q.comps.length] } :
                                Pool).workers = q.workers from rfl, hqw]
                          simp)] at hs
                        cases hs
                    | none =>
                        dsimp only [notifyOne] at hs
                        rw [if_neg (by
                          rw [show ({ q with
                              comps := q.comps ++ [c]
                              channels := q.channels ++ [none]
                              tasks := q.tasks ++ [q.comps.length] } :
                                Pool).workers = q.workers from rfl, hqw]
                          simp)] at hs
                        cases hs
                        refine ⟨hqw, ?_⟩
                        intro ch hch
                        rcases List.mem_append.mp hch with hch | hch
                        · exact hqc ch hch
                        · simpa using hch
            | wake i =>
                exfalso
                have hs' : workerWake q i = some q₂ := hs
                unfold workerWake at hs'
                rw [show q.workers[i]? = none from by rw [hqw]; rfl] at hs'
                cases hs'
            | exec i =>
                exfalso
                have hs' : workerExec q i = some q₂ := hs
                unfold workerExec at hs'
                rw [show q.workers[i]? = none from by rw [hqw]; rfl] at hs'
                cases hs'
            | dstop =>
                dsimp only [step] at hs
                by_cases hd : q.dtor = DtorPhase.idle
                · rw [if_pos hd] at hs
                  cases hs
                  exact ⟨hqw, hqc⟩
                · rw [if_neg hd] at hs
                  cases hs
            | dnotify =>
                dsimp only [step] at hs
                by_cases hd : q.dtor = DtorPhase.stopSet
                · rw [if_pos hd] at hs
                  cases hs
                  refine ⟨?_, hqc⟩
                  rw [show (Pool.mk (q.workers.map wakeAll) q.tasks q.stop
                      q.comps q.channels DtorPhase.notified).workers =
                    q.workers.map wakeAll from rfl, hqw]
                  rfl
                · rw [if_neg hd] at hs
                  cases hs
            | djoin =>
                dsimp only [step] at hs
                by_cases hd : q.dtor = DtorPhase.notified ∧ ∀ w ∈ q.workers,
                    w = WStatus.terminated
                · rw [if_pos hd] at hs
                  cases hs
                  exact ⟨hqw, hqc⟩
                · rw [if_neg hd] at hs
                  cases hs
          exact ih q₂ p₁ hq₂.1 hq₂.2 h1

/-- Zero-worker pool lifecycle: one task enqueued, then the destructor runs to
completion (C10 witness and concrete scenario). -/
def c10trace : List Event :=
  [Event.enq ⟨Except.ok 25⟩ none, Event.dstop, Event.dnotify, Event.djoin]

/-- The state `c10trace` leaves the zero-worker pool in: destructor returned,
task still queued, its channel still pending. -/
def c10pool : Pool :=
  { workers := []
    tasks := [0]
    stop := true
    comps := [⟨Except.ok 25⟩]
    channels := [none]
    dtor := DtorPhase.joined }

/-- C10: a pool constructed with thread count 0 is built successfully with no
workers; `enqueue` still accepts tasks while the flag is clear (returning a
handle); no submitted task is ever executed in any reachable state (no result
channel is ever written); and the destructor returns — reaching `joined` —
with the queued task still unexecuted, so the drain-before-return guarantee
does not hold for a zero-thread pool. -/
theorem claim_C10_zero_thread_pool :
    (init 0).workers = [] ∧
    (∀ (p : Pool) (c : Comp), p.stop = false →
      enqueueCore p c = Except.ok ({ p with
          comps    := p.comps ++ [c]
          channels := p.channels ++ [none]
          tasks    := p.tasks ++ [p.comps.length] }, p.comps.length)) ∧
    (∀ p : Pool, Reachable 0 p → ∀ (t : Nat) (r : Except TErr Val),
      ¬p.channels[t]? = some (some r)) ∧
    (run (init 0) c10trace = some c10pool ∧ c10pool.dtor = DtorPhase.joined ∧
      c10pool.tasks = [0] ∧ c10pool.channels = [none]) := by
  refine ⟨rfl, ?_, ?_, by decide⟩
  · intro p c hs
    unfold enqueueCore
    rw [hs]
    simp
  · intro p hre t r hch
    have hz := (zero_inv hre).2
    have := hz _ (List.getElem?_mem hch)
    cases this

theorem claim_C10_witness :
    (∀ (t : Nat) (r : Except TErr Val),
      ¬c10pool.channels[t]? = some (some r)) ∧
    enqueueCore (init 0) ⟨Except.ok 25⟩ = Except.ok ({ (init 0) with
        comps    := (init 0).comps ++ [⟨Except.ok 25⟩]
        channels := (init 0).channels ++ [none]
        tasks    := (init 0).tasks ++ [(init 0).comps.length] },
      (init 0).comps.length) :=
  ⟨claim_C10_zero_thread_pool.2.2.1 c10pool ⟨c10trace, by decide⟩,
   claim_C10_zero_thread_pool.2.1 (init 0) ⟨Except.ok 25⟩ rfl⟩

end ThreadPoolModel
